import Mathlib

/-!
# Verification of the wikipath traversal engine

Shallow embedding of the wikipath program (wikipath.go and its sibling
iteration): breadth-first search over a lazily discovered directed graph of
page titles, with per-dequeue fan-out of neighbor tasks, a visited set, a
FIFO frontier queue, parent-chain path reconstruction, and a paginated
link-list fetch.

Modelling conventions:
* The remote content source is a pure oracle: a resolution function for
  GetPage (returning the title carried by the API response, or failure) and
  a fetch function for PopulateLinks (returning the assembled link list, or
  failure of any kind).  Fetches are logged so that fetch-count properties
  can be stated.
* The goroutine fan-out of Walk is sequentialized in collection order: each
  neighbor task's visited-set check is performed against the visited set as
  of its collection turn, which is one admissible interleaving of the
  original program (the collecting loop is the only writer of the set).
* The dequeue loop is given explicit fuel; lemmas show a sufficient fuel
  bound for any finite discoverable universe, which models termination.
-/

/-- The content source as seen by Walk: resolution of a title (GetPage,
returning the title carried by the API response) and the assembled link
list of a title (PopulateLinks), either of which can fail. -/
structure Src where
  resolve : String → Option String
  fetch : String → Option (List String)

/-- A failure-free source whose resolution is the identity and whose link
lists are given by the edge function L. -/
def mkSrc (L : String → List String) : Src :=
  { resolve := fun x => some x, fetch := fun x => some (L x) }

/-- A discovered page: title, populated link list, and the parent reference
set at discovery time (GoPage.root has a nil parent). Mirrors the Page
struct of wikipath.go. -/
inductive GoPage : Type where
  | root (title : String) (links : List String)
  | child (title : String) (links : List String) (parent : GoPage)
deriving DecidableEq

def GoPage.title : GoPage → String
  | .root ti _ => ti
  | .child ti _ _ => ti

def GoPage.links : GoPage → List String
  | .root _ lk => lk
  | .child _ lk _ => lk

/-- NewPath of wikipath.go: follow parent references back to the root and
accumulate the titles front-first, producing the root-to-terminal list. -/
def NewPath : GoPage → List String
  | .root ti _ => [ti]
  | .child ti _ par => NewPath par ++ [ti]

/-- Title of the root of a parent chain. -/
def GoPage.rootTitle : GoPage → String
  | .root ti _ => ti
  | .child _ _ par => par.rootTitle

/-- Number of nodes on a parent chain, terminal included. -/
def GoPage.chainLen : GoPage → Nat
  | .root _ _ => 1
  | .child _ _ par => par.chainLen + 1

/-- Result of collecting one dequeued node's neighbor fan-out (the goroutine
dispatch loop plus the collection loop of Walk): the updated visited set,
the pages to append to the frontier, the titles whose link lists were
fetched (in order), and the target page if the target was collected. -/
structure FanOut where
  visited : List String
  enqueued : List GoPage
  fetched : List String
  hit : Option GoPage
deriving DecidableEq

/-- One dequeued node's fan-out, sequentialized in collection order.  For
each link: skip it if its title is in the visited set; if its title equals
the target, stop and report the target page (its link list is not fetched);
otherwise fetch its link list, and on success mark it visited and prepare it
for the frontier, on failure skip it.  Mirrors lines 165-192 of
wikipath.go. -/
def fanout (src : Src) (t : String) (top : GoPage) :
    List String → List String → FanOut
  | [], vis => ⟨vis, [], [], none⟩
  | l :: ls, vis =>
    if l ∈ vis then fanout src t top ls vis
    else if l = t then ⟨vis, [], [], some (.child l [] top)⟩
    else
      match src.fetch l with
      | none =>
        let r := fanout src t top ls vis
        { r with fetched := l :: r.fetched }
      | some lks =>
        let r := fanout src t top ls (l :: vis)
        { r with enqueued := .child l lks top :: r.enqueued,
                 fetched := l :: r.fetched }

/-- Caller-visible outcome of Walk.  startError covers a failure of the
start title's own resolution or link fetch; diverge marks fuel exhaustion
(the Go loop not having terminated within the given budget). -/
inductive WalkOut : Type where
  | path (p : List String)
  | noPath
  | startError
  | diverge
deriving DecidableEq

/-- The dequeue loop of Walk: pop the queue head, collect its fan-out,
return the reconstructed path when the target was collected, otherwise
append the prepared pages to the queue tail and continue; an emptied queue
means no path exists.  The second component accumulates the fetch log. -/
def walkLoop (src : Src) (t : String) :
    Nat → List GoPage → List String → List String → WalkOut × List String
  | 0, _, _, log => (.diverge, log)
  | _ + 1, [], _, log => (.noPath, log)
  | n + 1, top :: rest, vis, log =>
    match fanout src t top top.links vis with
    | ⟨_, _, fet, some tp⟩ => (.path (NewPath tp), log ++ fet)
    | ⟨vis2, enq, fet, none⟩ =>
      walkLoop src t n (rest ++ enq) vis2 (log ++ fet)

/-- Walk of wikipath.go: resolve the start title; if start equals target
return the single-node path at once (no link fetch); otherwise fetch the
start's links and run the dequeue loop from a queue holding only the start
page and an empty visited set. -/
def walk (src : Src) (s t : String) (fuel : Nat) : WalkOut × List String :=
  match src.resolve s with
  | none => (.startError, [])
  | some cs =>
    if s = t then (.path (NewPath (.root cs [])), [])
    else
      match src.fetch cs with
      | none => (.startError, [cs])
      | some ls => walkLoop src t fuel [.root cs ls] [] [cs]

/-! ## Pagination drain (PopulateLinks of wikipath.go, GetAPIPage of the
sibling iteration)

A response of the remote source is modelled by the link list of the page it
carries and by whether a continuation token is present.  A drain consumes
the first decoded response plus the stream of responses produced by the
successive continuation requests. -/

/-- One decoded API response: the selected page's links and whether a
continuation token is present. -/
structure ApiRespM where
  links : List String
  cont : Bool
deriving DecidableEq

/-- PopulateLinks of wikipath.go: while the current response carries a
continuation token, append the current response's links and decode the next
response; stop (appending nothing) once no token is present. -/
def PopulateLinksM : ApiRespM → List ApiRespM → List String
  | ar, rs =>
    if ar.cont then
      ar.links ++
        (match rs with
         | [] => []
         | r :: rs2 => PopulateLinksM r rs2)
    else []

/-- GetAPIPage of the sibling iteration: append the current response's
links, then continue with the next response while a continuation token is
present. -/
def GetAPIPageM : ApiRespM → List ApiRespM → List String
  | ar, rs =>
    ar.links ++
      (if ar.cont then
        (match rs with
         | [] => []
         | r :: rs2 => GetAPIPageM r rs2)
      else [])

/-- The response stream produced by a neighbor list split into the given
pages: every response carries a continuation token except the last. -/
def mkResponses : List (List String) → List ApiRespM
  | [] => []
  | [pg] => [⟨pg, false⟩]
  | pg :: rest => ⟨pg, true⟩ :: mkResponses rest

/-- PopulateLinks applied to a split neighbor list. -/
def PopulateLinksDrain (pages : List (List String)) : List String :=
  match mkResponses pages with
  | [] => []
  | r :: rs => PopulateLinksM r rs

/-- GetAPIPage applied to a split neighbor list. -/
def GetAPIPageDrain (pages : List (List String)) : List String :=
  match mkResponses pages with
  | [] => []
  | r :: rs => GetAPIPageM r rs

/-! ## Paths in the discovered graph -/

/-- A directed path of n nodes (endpoints included) from one title to
another, along the edge lists given by E. -/
inductive PathN (E : String → List String) : String → String → Nat → Prop
  | refl (x : String) : PathN E x x 1
  | step {x y z : String} {n : Nat} (h : y ∈ E x) (p : PathN E y z n) :
      PathN E x z (n + 1)

/-- The edge function a source presents to the traversal: the assembled
link list of a title, empty on fetch failure. -/
def Src.edges (src : Src) (x : String) : List String :=
  (src.fetch x).getD []

/-! ## Concrete sources used as witnesses and counterexamples -/

/-- The mock graph of the spec scenario: A links to B and C, B and C link to
D, D links nowhere. -/
def L9 : String → List String := fun x =>
  if x = "A" then ["B", "C"]
  else if x = "B" then ["D"]
  else if x = "C" then ["D"]
  else []

/-- A two-node cycle: A links to B and B links back to A. -/
def LC4 : String → List String := fun x =>
  if x = "A" then ["B"] else if x = "B" then ["A"] else []

/-- The mock graph with a transient fetch failure on C. -/
def srcC5 : Src :=
  { resolve := fun x => some x,
    fetch := fun x =>
      if x = "A" then some ["B", "C"]
      else if x = "B" then some ["D"]
      else if x = "C" then none
      else if x = "D" then some [] else none }

/-- A source whose resolution canonicalizes the queried title: the response
for the title a carries the title A. -/
def srcCanon : Src :=
  { resolve := fun x => if x = "a" then some "A" else none,
    fetch := fun _ => some [] }

/-- A one-edge graph from A to B. -/
def LW : String → List String := fun x => if x = "A" then ["B"] else []


/-- Well-formedness of a queue page with respect to an edge function and a
start title: its link list is the edge list of its title, and its parent
chain is an edge-connected path starting at the start title. -/
def Wf (L : String → List String) (s : String) : GoPage → Prop
  | .root ti lks => ti = s ∧ lks = L ti
  | .child ti lks par => lks = L ti ∧ ti ∈ L par.title ∧ Wf L s par

/-- Number of universe titles not yet visited (the decreasing part of the
loop measure). -/
def remain (U vis : List String) : Nat :=
  (U.filter (fun x => decide (x ∉ vis))).length

/-! ## Basic facts about path reconstruction -/

theorem NewPath_ne_nil (p : GoPage) : NewPath p ≠ [] := by
  cases p with
  | root ti lk => simp [NewPath]
  | child ti lk par => simp [NewPath]

theorem NewPath_length_child (ti : String) (lk : List String) (par : GoPage) :
    (NewPath (.child ti lk par)).length = (NewPath par).length + 1 := by
  simp [NewPath]

/-! ## Structure of one fan-out collection -/

theorem fanout_hit_eq (src : Src) (t : String) (top : GoPage) :
    ∀ ls vis tp, (fanout src t top ls vis).hit = some tp →
      tp = .child t [] top ∧ t ∈ ls := by
  intro ls
  induction ls with
  | nil => intro vis tp h; simp [fanout] at h
  | cons l ls ih =>
    intro vis tp h
    by_cases h1 : l ∈ vis
    · simp only [fanout, if_pos h1] at h
      rcases ih vis tp h with ⟨he, hm⟩
      exact ⟨he, List.mem_cons_of_mem _ hm⟩
    · by_cases h2 : l = t
      · simp only [fanout, if_neg h1, if_pos h2] at h
        cases h
        subst h2
        exact ⟨rfl, List.mem_cons_self _ _⟩
      · cases hf : src.fetch l with
        | none =>
          simp only [fanout, if_neg h1, if_neg h2, hf] at h
          rcases ih vis tp h with ⟨he, hm⟩
          exact ⟨he, List.mem_cons_of_mem _ hm⟩
        | some lks =>
          simp only [fanout, if_neg h1, if_neg h2, hf] at h
          rcases ih (l :: vis) tp h with ⟨he, hm⟩
          exact ⟨he, List.mem_cons_of_mem _ hm⟩

theorem fanout_hit_of_mem (src : Src) (t : String) (top : GoPage) :
    ∀ ls vis, t ∉ vis → t ∈ ls → (fanout src t top ls vis).hit ≠ none := by
  intro ls
  induction ls with
  | nil => intro vis hv hm; simp at hm
  | cons l ls ih =>
    intro vis hv hm
    by_cases h1 : l ∈ vis
    · have hlt : t ≠ l := fun he => hv (he ▸ h1)
      have hm' : t ∈ ls := by
        cases List.mem_cons.mp hm with
        | inl h => exact absurd h.symm hlt.symm
        | inr h => exact h
      simpa only [fanout, if_pos h1] using ih vis hv hm'
    · by_cases h2 : l = t
      · simp [fanout, if_neg h1, if_pos h2]
      · have hm' : t ∈ ls := by
          cases List.mem_cons.mp hm with
          | inl h => exact absurd h.symm h2
          | inr h => exact h
        cases hf : src.fetch l with
        | none => simpa only [fanout, if_neg h1, if_neg h2, hf] using ih vis hv hm'
        | some lks =>
          have hv' : t ∉ l :: vis := by
            intro hc
            cases List.mem_cons.mp hc with
            | inl h => exact h2 h.symm
            | inr h => exact hv h
          simpa only [fanout, if_neg h1, if_neg h2, hf] using ih (l :: vis) hv' hm'

theorem fanout_fetched_mem (src : Src) (t : String) (top : GoPage) :
    ∀ ls vis, ∀ x ∈ (fanout src t top ls vis).fetched,
      x ∈ ls ∧ x ∉ vis ∧ x ≠ t := by
  intro ls
  induction ls with
  | nil => intro vis x hx; simp [fanout] at hx
  | cons l ls ih =>
    intro vis x hx
    by_cases h1 : l ∈ vis
    · simp only [fanout, if_pos h1] at hx
      rcases ih vis x hx with ⟨ha, hb, hc⟩
      exact ⟨List.mem_cons_of_mem _ ha, hb, hc⟩
    · by_cases h2 : l = t
      · simp [fanout, if_neg h1, if_pos h2] at hx
      · cases hf : src.fetch l with
        | none =>
          simp only [fanout, if_neg h1, if_neg h2, hf] at hx
          cases List.mem_cons.mp hx with
          | inl h => exact ⟨h ▸ List.mem_cons_self _ _, h ▸ h1, h ▸ h2⟩
          | inr h =>
            rcases ih vis x h with ⟨ha, hb, hc⟩
            exact ⟨List.mem_cons_of_mem _ ha, hb, hc⟩
        | some lks =>
          simp only [fanout, if_neg h1, if_neg h2, hf] at hx
          cases List.mem_cons.mp hx with
          | inl h => exact ⟨h ▸ List.mem_cons_self _ _, h ▸ h1, h ▸ h2⟩
          | inr h =>
            rcases ih (l :: vis) x h with ⟨ha, hb, hc⟩
            exact ⟨List.mem_cons_of_mem _ ha,
              fun hv => hb (List.mem_cons_of_mem _ hv), hc⟩

/-- Shape of a fan-out: the visited set grows by a block of fresh titles,
one per page prepared for the frontier, every prepared page being a child of
the dequeued node built from a successful fetch. -/
theorem fanout_spec (src : Src) (t : String) (top : GoPage) :
    ∀ ls vis, ∃ nw : List String,
      (fanout src t top ls vis).visited = nw ++ vis ∧
      (fanout src t top ls vis).enqueued.map GoPage.title = nw.reverse ∧
      nw.Nodup ∧
      (∀ x ∈ nw, x ∈ ls ∧ x ∉ vis ∧ x ≠ t) ∧
      (∀ q ∈ (fanout src t top ls vis).enqueued,
        ∃ x lks, q = .child x lks top ∧ src.fetch x = some lks) := by
  intro ls
  induction ls with
  | nil =>
    intro vis
    exact ⟨[], by simp [fanout]⟩
  | cons l ls ih =>
    intro vis
    by_cases h1 : l ∈ vis
    · rcases ih vis with ⟨nw, ha, hb, hc, hd, he⟩
      refine ⟨nw, ?_, ?_, hc, ?_, ?_⟩
      · simpa only [fanout, if_pos h1] using ha
      · simpa only [fanout, if_pos h1] using hb
      · intro x hx
        rcases hd x hx with ⟨ha', hb', hc'⟩
        exact ⟨List.mem_cons_of_mem _ ha', hb', hc'⟩
      · intro q hq
        refine he q ?_
        simpa only [fanout, if_pos h1] using hq
    · by_cases h2 : l = t
      · refine ⟨[], ?_, ?_, by simp, by simp, ?_⟩
        · simp [fanout, if_neg h1, if_pos h2]
        · simp [fanout, if_neg h1, if_pos h2]
        · intro q hq
          simp [fanout, if_neg h1, if_pos h2] at hq
      · cases hf : src.fetch l with
        | none =>
          rcases ih vis with ⟨nw, ha, hb, hc, hd, he⟩
          refine ⟨nw, ?_, ?_, hc, ?_, ?_⟩
          · simpa only [fanout, if_neg h1, if_neg h2, hf] using ha
          · simpa only [fanout, if_neg h1, if_neg h2, hf] using hb
          · intro x hx
            rcases hd x hx with ⟨ha', hb', hc'⟩
            exact ⟨List.mem_cons_of_mem _ ha', hb', hc'⟩
          · intro q hq
            refine he q ?_
            simpa only [fanout, if_neg h1, if_neg h2, hf] using hq
        | some lks =>
          rcases ih (l :: vis) with ⟨nw, ha, hb, hc, hd, he⟩
          refine ⟨nw ++ [l], ?_, ?_, ?_, ?_, ?_⟩
          · simp only [fanout, if_neg h1, if_neg h2, hf]
            simpa [List.append_assoc] using ha
          · simp only [fanout, if_neg h1, if_neg h2, hf, List.map_cons, hb]
            simp [GoPage.title]
          · refine List.Nodup.append hc (by simp) ?_
            intro x hx hx'
            simp only [List.mem_singleton] at hx'
            subst hx'
            exact (hd x hx).2.1 (List.mem_cons_self _ _)
          · intro x hx
            rcases List.mem_append.mp hx with hx' | hx'
            · rcases hd x hx' with ⟨ha', hb', hc'⟩
              exact ⟨List.mem_cons_of_mem _ ha',
                fun hv => hb' (List.mem_cons_of_mem _ hv), hc'⟩
            · simp only [List.mem_singleton] at hx'
              subst hx'
              exact ⟨List.mem_cons_self _ _, h1, h2⟩
          · intro q hq
            simp only [fanout, if_neg h1, if_neg h2, hf, List.mem_cons] at hq
            cases hq with
            | inl h => exact ⟨l, lks, h, hf⟩
            | inr h => exact he q h

/-- With a failure-free source, the fetched titles are exactly the titles of
the pages prepared for the frontier, in collection order. -/
theorem fanout_total_fetched (src : Src) (t : String) (top : GoPage)
    (htot : ∀ y, (src.fetch y).isSome) :
    ∀ ls vis, (fanout src t top ls vis).fetched =
      (fanout src t top ls vis).enqueued.map GoPage.title := by
  intro ls
  induction ls with
  | nil => intro vis; simp [fanout]
  | cons l ls ih =>
    intro vis
    by_cases h1 : l ∈ vis
    · simpa only [fanout, if_pos h1] using ih vis
    · by_cases h2 : l = t
      · simp [fanout, if_neg h1, if_pos h2]
      · cases hf : src.fetch l with
        | none => exact absurd hf (by have := htot l; simp [hf] at this)
        | some lks =>
          simp only [fanout, if_neg h1, if_neg h2, hf, List.map_cons]
          simpa [GoPage.title] using ih (l :: vis)

/-- After a fan-out that did not collect the target, every link whose fetch
can succeed is in the visited set. -/
theorem fanout_covers (src : Src) (t : String) (top : GoPage) :
    ∀ ls vis, (fanout src t top ls vis).hit = none →
      ∀ y ∈ ls, (src.fetch y).isSome → y ∈ (fanout src t top ls vis).visited := by
  intro ls
  induction ls with
  | nil => intro vis hh y hy; simp at hy
  | cons l ls ih =>
    intro vis hh y hy hsome
    rcases fanout_spec src t top (l :: ls) vis with ⟨nw, ha, _, _, _, _⟩
    by_cases h1 : l ∈ vis
    · have hh' : (fanout src t top ls vis).hit = none := by
        simpa only [fanout, if_pos h1] using hh
      cases List.mem_cons.mp hy with
      | inl h =>
        subst h
        rw [ha]
        exact List.mem_append_right _ h1
      | inr h =>
        have := ih vis hh' y h hsome
        simpa only [fanout, if_pos h1] using this
    · by_cases h2 : l = t
      · simp [fanout, if_neg h1, if_pos h2] at hh
      · cases hf : src.fetch l with
        | none =>
          have hh' : (fanout src t top ls vis).hit = none := by
            simpa only [fanout, if_neg h1, if_neg h2, hf] using hh
          cases List.mem_cons.mp hy with
          | inl h => subst h; rw [hf] at hsome; simp at hsome
          | inr h =>
            have := ih vis hh' y h hsome
            simpa only [fanout, if_neg h1, if_neg h2, hf] using this
        | some lks =>
          have hh' : (fanout src t top ls (l :: vis)).hit = none := by
            simpa only [fanout, if_neg h1, if_neg h2, hf] using hh
          rcases fanout_spec src t top ls (l :: vis) with ⟨nw2, ha2, _, _, _, _⟩
          cases List.mem_cons.mp hy with
          | inl h =>
            subst h
            have : y ∈ (fanout src t top ls (y :: vis)).visited := by
              rw [ha2]; exact List.mem_append_right _ (List.mem_cons_self _ _)
            simpa only [fanout, if_neg h1, if_neg h2, hf] using this
          | inr h =>
            have := ih (l :: vis) hh' y h hsome
            simpa only [fanout, if_neg h1, if_neg h2, hf] using this

/-- When the target occurs among the links of the dequeued node (and is not
in the visited set — an invariant of the loop), the fan-out reports the
target page as a child of the dequeued node, and only links strictly before
the first hit were fetched. -/
theorem fanout_pre_hit (src : Src) (t : String) (top : GoPage) (post : List String) :
    ∀ pre vis, t ∉ vis →
      (fanout src t top (pre ++ t :: post) vis).hit = some (.child t [] top) ∧
      ∀ x ∈ (fanout src t top (pre ++ t :: post) vis).fetched, x ∈ pre := by
  intro pre
  induction pre with
  | nil =>
    intro vis hv
    constructor
    · simp [fanout, if_neg hv]
    · intro x hx
      simp [fanout, if_neg hv] at hx
  | cons a pre ih =>
    intro vis hv
    by_cases h1 : a ∈ vis
    · rcases ih vis hv with ⟨hh, hfe⟩
      constructor
      · simpa only [List.cons_append, fanout, if_pos h1] using hh
      · intro x hx
        refine List.mem_cons_of_mem _ (hfe x ?_)
        simpa only [List.cons_append, fanout, if_pos h1] using hx
    · by_cases h2 : a = t
      · constructor
        · simp only [List.cons_append, fanout, if_neg h1, if_pos h2]
          rw [h2]
        · intro x hx
          simp only [List.cons_append, fanout, if_neg h1, if_pos h2] at hx
          simp at hx
      · cases hf : src.fetch a with
        | none =>
          rcases ih vis hv with ⟨hh, hfe⟩
          constructor
          · simpa only [List.cons_append, fanout, if_neg h1, if_neg h2, hf] using hh
          · intro x hx
            simp only [List.cons_append, fanout, if_neg h1, if_neg h2, hf] at hx
            cases List.mem_cons.mp hx with
            | inl h => exact h ▸ List.mem_cons_self _ _
            | inr h => exact List.mem_cons_of_mem _ (hfe x h)
        | some lks =>
          have hv' : t ∉ a :: vis := by
            intro hc
            cases List.mem_cons.mp hc with
            | inl h => exact h2 h.symm
            | inr h => exact hv h
          rcases ih (a :: vis) hv' with ⟨hh, hfe⟩
          constructor
          · simpa only [List.cons_append, fanout, if_neg h1, if_neg h2, hf] using hh
          · intro x hx
            simp only [List.cons_append, fanout, if_neg h1, if_neg h2, hf] at hx
            cases List.mem_cons.mp hx with
            | inl h => exact h ▸ List.mem_cons_self _ _
            | inr h => exact List.mem_cons_of_mem _ (hfe x h)

/-- A link whose title is not yet visited, differs from the target, fetches
successfully, and is not preceded by the target in the link list, is
re-fetched and prepared for the frontier — even when that title is the
start node's own (the start is never inserted into the visited set at
initialization). -/
theorem fanout_rediscover (src : Src) (t : String) (top : GoPage)
    (a : String) (lks : List String) (post : List String)
    (ha : src.fetch a = some lks) (hat : a ≠ t) :
    ∀ pre vis, t ∉ pre → a ∉ pre → a ∉ vis →
      a ∈ (fanout src t top (pre ++ a :: post) vis).fetched ∧
      GoPage.child a lks top ∈ (fanout src t top (pre ++ a :: post) vis).enqueued := by
  intro pre
  induction pre with
  | nil =>
    intro vis _ _ hav
    simp only [List.nil_append, fanout, if_neg hav, if_neg hat, ha]
    exact ⟨List.mem_cons_self _ _, List.mem_cons_self _ _⟩
  | cons b pre ih =>
    intro vis htp hap hav
    have htp' : t ∉ pre := fun h => htp (List.mem_cons_of_mem _ h)
    have hap' : a ∉ pre := fun h => hap (List.mem_cons_of_mem _ h)
    have hab : a ≠ b := fun h => hap (h ▸ List.mem_cons_self _ _)
    by_cases h1 : b ∈ vis
    · rcases ih vis htp' hap' hav with ⟨hx, hq⟩
      constructor
      · simpa only [List.cons_append, fanout, if_pos h1] using hx
      · simpa only [List.cons_append, fanout, if_pos h1] using hq
    · by_cases h2 : b = t
      · exact absurd (h2 ▸ List.mem_cons_self b pre) htp
      · cases hf : src.fetch b with
        | none =>
          rcases ih vis htp' hap' hav with ⟨hx, hq⟩
          constructor
          · simp only [List.cons_append, fanout, if_neg h1, if_neg h2, hf]
            exact List.mem_cons_of_mem _ hx
          · simpa only [List.cons_append, fanout, if_neg h1, if_neg h2, hf] using hq
        | some lks2 =>
          have hav' : a ∉ b :: vis := by
            intro hc
            cases List.mem_cons.mp hc with
            | inl h => exact hab h
            | inr h => exact hav h
          rcases ih (b :: vis) htp' hap' hav' with ⟨hx, hq⟩
          constructor
          · simp only [List.cons_append, fanout, if_neg h1, if_neg h2, hf]
            exact List.mem_cons_of_mem _ hx
          · simp only [List.cons_append, fanout, if_neg h1, if_neg h2, hf]
            exact List.mem_cons_of_mem _ hq

/-! ## Pagination drain characterization -/

theorem GetAPIPageDrain_cons (pg : List String) (q : List String)
    (qs : List (List String)) :
    GetAPIPageDrain (pg :: q :: qs) = pg ++ GetAPIPageDrain (q :: qs) := by
  cases qs with
  | nil => simp [GetAPIPageDrain, mkResponses, GetAPIPageM]
  | cons r rs => simp [GetAPIPageDrain, mkResponses, GetAPIPageM]

theorem PopulateLinksDrain_cons (pg : List String) (q : List String)
    (qs : List (List String)) :
    PopulateLinksDrain (pg :: q :: qs) = pg ++ PopulateLinksDrain (q :: qs) := by
  cases qs with
  | nil => simp [PopulateLinksDrain, mkResponses, PopulateLinksM]
  | cons r rs => simp [PopulateLinksDrain, mkResponses, PopulateLinksM]

theorem GetAPIPageDrain_flatten (pages : List (List String)) :
    GetAPIPageDrain pages = pages.flatten := by
  induction pages with
  | nil => rfl
  | cons pg rest ih =>
    cases rest with
    | nil => simp [GetAPIPageDrain, mkResponses, GetAPIPageM]
    | cons q qs => rw [GetAPIPageDrain_cons, ih]; simp

theorem PopulateLinksDrain_dropLast (pages : List (List String)) :
    PopulateLinksDrain pages = pages.dropLast.flatten := by
  induction pages with
  | nil => rfl
  | cons pg rest ih =>
    cases rest with
    | nil => simp [PopulateLinksDrain, mkResponses, PopulateLinksM]
    | cons q qs =>
      rw [PopulateLinksDrain_cons, ih]
      simp [List.dropLast]

/-! ## Claims -/

/-- C8: the path reconstructor NewPath terminates on every (finite, acyclic
by construction) parent chain and returns the title sequence from the root
to the terminal node: its first element is the root's title, its last
element is the terminal node's title, and its length is the length of the
parent chain. -/
theorem newPath_follows_parents (p : GoPage) :
    (NewPath p).head? = some p.rootTitle ∧
    (NewPath p).getLast? = some p.title ∧
    (NewPath p).length = p.chainLen := by
  induction p with
  | root ti lk => simp [NewPath, GoPage.rootTitle, GoPage.title, GoPage.chainLen]
  | child ti lk par ih =>
    rcases ih with ⟨h1, h2, h3⟩
    refine ⟨?_, ?_, ?_⟩
    · rw [NewPath, GoPage.rootTitle]
      cases hp : NewPath par with
      | nil => exact absurd hp (NewPath_ne_nil par)
      | cons a l => rw [hp] at h1; simpa using h1
    · simp [NewPath, GoPage.title]
    · simp [NewPath, GoPage.chainLen, h3]

/-- C2 (amended): when the start title resolves, Walk with equal start and
target returns the single-element path holding the resolved title (which is
the queried title itself whenever resolution is the identity on it), and
issues no link fetch at all. -/
theorem walk_self (src : Src) (x cs : String) (fuel : Nat)
    (h : src.resolve x = some cs) :
    walk src x x fuel = (.path [cs], []) := by
  simp [walk, h, NewPath]

/-- C2 witness: on the canonicalizing source, the start resolves and Walk
returns the resolved single-element path with an empty fetch log. -/
theorem walk_self_witness :
    srcCanon.resolve "a" = some "A" ∧ walk srcCanon "a" "a" 3 = (.path ["A"], []) :=
  ⟨by decide, walk_self srcCanon "a" "A" 3 (by decide)⟩

/-- C2 counterexample: the title a resolves successfully, yet Walk(a, a)
does not return the path holding a itself — it returns the title carried by
the resolution response (A), as Walk builds the start page from the
response title. -/
theorem walk_self_canonical_cex :
    (srcCanon.resolve "a").isSome = true ∧
    (walk srcCanon "a" "a" 3).1 ≠ WalkOut.path ["a"] := by
  constructor
  · decide
  · decide

/-- C3: GetAPIPage of the sibling iteration assembles the same edge
sequence however the list is split into pages (the flattening of the
pages), but PopulateLinks of wikipath.go appends a response's links only
while a continuation token is present, so it drops the final page of every
split; on a single-page response (no continuation token) it returns the
empty list instead of that page's links. -/
theorem populateLinks_pagination :
    (∀ pages : List (List String), GetAPIPageDrain pages = pages.flatten) ∧
    (∀ pages : List (List String),
      PopulateLinksDrain pages = pages.dropLast.flatten) ∧
    PopulateLinksDrain [["B"]] = [] ∧
    GetAPIPageDrain [["B"]] = ["B"] ∧
    PopulateLinksDrain [["a"], ["b"]] = ["a"] ∧
    GetAPIPageDrain [["a"], ["b"]] = ["a", "b"] :=
  ⟨GetAPIPageDrain_flatten, PopulateLinksDrain_dropLast, by decide, by decide,
    by decide, by decide⟩

/-- C9 counterexample: on the mock graph, Walk(A, D) returns the path
A, B, D, which has three titles, not four as the claim states. -/
theorem walk_mock_cex :
    walk (mkSrc L9) "A" "D" 10 = (.path ["A", "B", "D"], ["A", "B", "C"]) ∧
    ((["A", "B", "D"] : List String).length = 4) = False := by
  constructor
  · decide
  · simp

/-- C9 (amended): on the mock graph, Walk(A, D) returns a path of three
titles — A, B, D under the modelled collection order (A, C, D is the other
admissible outcome under other completion orders) — and each consecutive
pair of titles on it is an edge of the graph. -/
theorem walk_mock :
    walk (mkSrc L9) "A" "D" 10 = (.path ["A", "B", "D"], ["A", "B", "C"]) ∧
    (["A", "B", "D"] : List String).length = 3 ∧
    List.Chain' (fun a b => b ∈ L9 a) ["A", "B", "D"] := by
  refine ⟨by decide, rfl, ?_⟩
  simp [List.chain'_cons, List.chain'_singleton, L9]

/-- C7: when a link equal to the target is collected (the target is never in
the visited set during the loop), the dequeue loop returns the reconstructed
path through the dequeued node immediately: the target's own link list is
never fetched, only links collected before the first target occurrence were
fetched, and no page prepared by the fan-out is appended to the frontier. -/
theorem walk_target_collect (src : Src) (t : String) (top : GoPage)
    (rest : List GoPage) (vis log : List String) (n : Nat)
    (pre post : List String)
    (hl : top.links = pre ++ t :: post) (hvt : t ∉ vis) :
    walkLoop src t (n + 1) (top :: rest) vis log
      = (.path (NewPath top ++ [t]),
         log ++ (fanout src t top top.links vis).fetched) ∧
    t ∉ (fanout src t top top.links vis).fetched ∧
    ∀ x ∈ (fanout src t top top.links vis).fetched, x ∈ pre := by
  obtain ⟨hh, hfe⟩ := fanout_pre_hit src t top post pre vis hvt
  rw [← hl] at hh hfe
  refine ⟨?_, ?_, hfe⟩
  · rcases hfo : fanout src t top top.links vis with ⟨v2, enq, fet, hit⟩
    rw [hfo] at hh
    simp only at hh
    subst hh
    simp only [walkLoop, hfo, NewPath]
  · intro hmem
    exact (fanout_fetched_mem src t top top.links vis t hmem).2.2 rfl

/-- C7 witness: a node whose links are B, D, C with target D — the loop
returns the path through the node at once, D is not fetched, and only B
(collected before D) was fetched. -/
theorem walk_target_collect_witness :
    walkLoop (mkSrc L9) "D" 4 [GoPage.root "A" ["B", "D", "C"]] [] ["A"]
      = (.path (NewPath (GoPage.root "A" ["B", "D", "C"]) ++ ["D"]),
         ["A"] ++ (fanout (mkSrc L9) "D" (GoPage.root "A" ["B", "D", "C"])
           (GoPage.links (GoPage.root "A" ["B", "D", "C"])) []).fetched) ∧
    "D" ∉ (fanout (mkSrc L9) "D" (GoPage.root "A" ["B", "D", "C"])
      (GoPage.links (GoPage.root "A" ["B", "D", "C"])) []).fetched ∧
    ∀ x ∈ (fanout (mkSrc L9) "D" (GoPage.root "A" ["B", "D", "C"])
      (GoPage.links (GoPage.root "A" ["B", "D", "C"])) []).fetched, x ∈ ["B"] :=
  walk_target_collect (mkSrc L9) "D" (GoPage.root "A" ["B", "D", "C"]) [] []
    ["A"] 3 ["B"] ["C"] (by decide) (by decide)

/-- C10: Walk enters its dequeue loop with an empty visited set — the start
title is not pre-inserted — and consequently a later link carrying the start
title (not yet visited, differing from the target) is fetched again and
prepared for the frontier as a fresh child page instead of being skipped as
visited. -/
theorem walk_start_unvisited (src : Src) (s t cs : String) (ls : List String)
    (fuel : Nat) (top : GoPage) (vis pre post : List String)
    (hres : src.resolve s = some cs) (hst : s ≠ t)
    (hfet : src.fetch cs = some ls) (hcst : cs ≠ t)
    (htp : t ∉ pre) (hcp : cs ∉ pre) (hcv : cs ∉ vis) :
    walk src s t fuel = walkLoop src t fuel [.root cs ls] [] [cs] ∧
    cs ∈ (fanout src t top (pre ++ cs :: post) vis).fetched ∧
    GoPage.child cs ls top ∈ (fanout src t top (pre ++ cs :: post) vis).enqueued := by
  refine ⟨?_, ?_⟩
  · simp [walk, hres, hst, hfet]
  · exact fanout_rediscover src t top cs ls post hfet hcst pre vis htp hcp hcv

/-- C10 witness: on the two-node cycle, the start A is rediscovered from B
(A is not in the visited set), fetched a second time and re-enqueued. -/
theorem walk_start_unvisited_witness :
    walk (mkSrc LC4) "A" "Z" 5
      = walkLoop (mkSrc LC4) "Z" 5 [.root "A" ["B"]] [] ["A"] ∧
    "A" ∈ (fanout (mkSrc LC4) "Z"
      (GoPage.child "B" ["A"] (GoPage.root "A" ["B"]))
      ([] ++ "A" :: []) ["B"]).fetched ∧
    GoPage.child "A" ["B"] (GoPage.child "B" ["A"] (GoPage.root "A" ["B"]))
      ∈ (fanout (mkSrc LC4) "Z"
        (GoPage.child "B" ["A"] (GoPage.root "A" ["B"]))
        ([] ++ "A" :: []) ["B"]).enqueued :=
  walk_start_unvisited (mkSrc LC4) "A" "Z" "A" ["B"] 5
    (GoPage.child "B" ["A"] (GoPage.root "A" ["B"])) ["B"] [] []
    (by decide) (by decide) (by decide) (by decide) (by decide) (by decide)
    (by decide)

/-- C4 counterexample: on the two-node cycle A to B to A, Walk(A, Z) fetches
the link list of A twice (once at initialization, once when B's fan-out
rediscovers A, which was never inserted into the visited set), refuting
"every node's edge list is fetched at most once". -/
theorem walk_fetch_twice_cex :
    ¬ ((walk (mkSrc LC4) "A" "Z" 5).2.count "A" ≤ 1) := by decide

/-- Fetch-count invariant of the dequeue loop (failure-free source): if the
accumulated log counts every title at most once beyond visited-membership
(with one extra allowance for a distinguished title, the start), then the
final log counts every title at most once, or twice for the distinguished
title. -/
theorem walkLoop_count (src : Src) (t s0 : String)
    (htot : ∀ y, (src.fetch y).isSome) :
    ∀ fuel queue vis log,
      (∀ y : String, log.count y
        ≤ (if y ∈ vis then 1 else 0) + (if y = s0 then 1 else 0)) →
      ∀ y : String, (walkLoop src t fuel queue vis log).2.count y
        ≤ 1 + (if y = s0 then 1 else 0) := by
  intro fuel
  induction fuel with
  | zero =>
    intro queue vis log hinv y
    simp only [walkLoop]
    refine le_trans (hinv y) (Nat.add_le_add_right ?_ _)
    split <;> simp
  | succ n ih =>
    intro queue vis log hinv y
    cases queue with
    | nil =>
      simp only [walkLoop]
      refine le_trans (hinv y) (Nat.add_le_add_right ?_ _)
      split <;> simp
    | cons top rest =>
      rcases hfo : fanout src t top top.links vis with ⟨v2, enq, fet, hit⟩
      obtain ⟨nw, ha, hb, hc, hd, _⟩ := fanout_spec src t top top.links vis
      have hfet := fanout_total_fetched src t top htot top.links vis
      rw [hfo] at ha hb hfet
      simp only at ha hb hfet
      have hfnodup : fet.Nodup := by rw [hfet, hb]; exact List.nodup_reverse.mpr hc
      have hfsub : ∀ x ∈ fet, x ∈ nw := by
        rw [hfet, hb]; intro x hx; exact List.mem_reverse.mp hx
      have hfnv : ∀ x ∈ fet, x ∉ vis := fun x hx => (hd x (hfsub x hx)).2.1
      cases hit with
      | some tp =>
        simp only [walkLoop, hfo, List.count_append]
        by_cases hyf : y ∈ fet
        · have h1 : fet.count y ≤ 1 := List.nodup_iff_count_le_one.mp hfnodup y
          have h2 := hinv y
          rw [if_neg (hfnv y hyf)] at h2
          generalize (if y = s0 then 1 else 0) = b at h2 ⊢
          omega
        · have h1 : fet.count y = 0 := List.count_eq_zero.mpr hyf
          have h2 := hinv y
          have h3 : (if y ∈ vis then 1 else 0) ≤ 1 := by split <;> simp
          generalize (if y = s0 then 1 else 0) = b at h2 ⊢
          generalize (if y ∈ vis then 1 else 0) = c at h2 h3
          omega
      | none =>
        simp only [walkLoop, hfo]
        refine ih (rest ++ enq) v2 (log ++ fet) ?_ y
        intro z
        rw [List.count_append]
        by_cases hzf : z ∈ fet
        · have h1 : fet.count z ≤ 1 := List.nodup_iff_count_le_one.mp hfnodup z
          have h2 := hinv z
          rw [if_neg (hfnv z hzf)] at h2
          have hz2 : z ∈ v2 := by
            rw [ha]; exact List.mem_append_left _ (hfsub z hzf)
          rw [if_pos hz2]
          generalize (if z = s0 then 1 else 0) = b at h2 ⊢
          omega
        · have h1 : fet.count z = 0 := List.count_eq_zero.mpr hzf
          have h2 := hinv z
          have h3 : (if z ∈ vis then 1 else 0) ≤ (if z ∈ v2 then 1 else 0) := by
            by_cases hzv : z ∈ vis
            · rw [if_pos hzv, if_pos (by rw [ha]; exact List.mem_append_right _ hzv)]
            · rw [if_neg hzv]; split <;> simp
          generalize (if z = s0 then 1 else 0) = b at h2 ⊢
          generalize (if z ∈ vis then 1 else 0) = c at h2 h3
          generalize (if z ∈ v2 then 1 else 0) = d at h3 ⊢
          omega

/-- C4 (amended): with a failure-free source, every title other than the
start's is fetched at most once per Walk invocation, however many parents
discover it; the start title itself — never pre-inserted into the visited
set — may be fetched a second time when rediscovered, and is fetched at most
twice. -/
theorem walk_fetch_dedup (L : String → List String) (s t x : String) (fuel : Nat) :
    (x ≠ s → (walk (mkSrc L) s t fuel).2.count x ≤ 1) ∧
    (walk (mkSrc L) s t fuel).2.count s ≤ 2 := by
  have htot : ∀ y, ((mkSrc L).fetch y).isSome := fun y => rfl
  by_cases hst : s = t
  · subst hst
    constructor
    · intro _; simp [walk, mkSrc]
    · simp [walk, mkSrc]
  · have hred : walk (mkSrc L) s t fuel
        = walkLoop (mkSrc L) t fuel [.root s (L s)] [] [s] := by
      simp [walk, mkSrc, hst]
    have hinv : ∀ y : String, ([s] : List String).count y
        ≤ (if y ∈ ([] : List String) then 1 else 0) + (if y = s then 1 else 0) := by
      intro y
      by_cases hys : y = s
      · subst hys; simp
      · rw [List.count_eq_zero.mpr (by simpa using hys)]
        exact Nat.zero_le _
    have key := walkLoop_count (mkSrc L) t s htot fuel [.root s (L s)] [] [s] hinv
    constructor
    · intro hxs
      have := key x
      rw [if_neg hxs] at this
      rw [hred]
      simpa using this
    · have := key s
      rw [if_pos rfl] at this
      rw [hred]
      simpa using this

/-! ## Paths and well-formed queue pages -/

theorem pathN_one_le {E : String → List String} {s x : String} {n : Nat}
    (h : PathN E s x n) : 1 ≤ n := by
  cases h with
  | refl => exact le_refl 1
  | step h p => exact Nat.le_add_left 1 _

theorem pathN_eq_of_one {E : String → List String} {s x : String}
    (h : PathN E s x 1) : x = s := by
  cases h with
  | refl => rfl
  | step h p => exact absurd (pathN_one_le p) (by omega)

theorem pathN_snoc {E : String → List String} {s w : String} {n : Nat}
    (h : PathN E s w n) {x : String} (hx : x ∈ E w) : PathN E s x (n + 1) := by
  induction h with
  | refl z => exact PathN.step hx (PathN.refl x)
  | step h p ih => exact PathN.step h (ih hx)

theorem pathN_snoc_decomp {E : String → List String} :
    ∀ {s x : String} {m : Nat}, PathN E s x m →
      ∀ {n : Nat}, m = n + 1 → 1 ≤ n → ∃ w, PathN E s w n ∧ x ∈ E w := by
  intro s x m h
  induction h with
  | refl z => intro n hm h1; omega
  | step hE p ih =>
    intro n hm h1
    have hn : _ = n := Nat.succ_injective hm
    subst hn
    rename_i x0 y0 z0 n0
    by_cases h2 : n0 = 1
    · subst h2
      exact ⟨x0, PathN.refl x0, by rw [pathN_eq_of_one p]; exact hE⟩
    · obtain ⟨w, pw, hz⟩ := ih (n := n0 - 1) (by omega) (by omega)
      refine ⟨w, ?_, hz⟩
      have h3 : n0 - 1 + 1 = n0 := by omega
      exact h3 ▸ PathN.step hE pw

theorem wf_links {L : String → List String} {s : String} :
    ∀ q : GoPage, Wf L s q → q.links = L q.title := by
  intro q hq
  cases q with
  | root ti lks => exact hq.2
  | child ti lks par => exact hq.1

theorem wf_pathN {L : String → List String} {s : String} :
    ∀ q : GoPage, Wf L s q → PathN L s q.title (NewPath q).length := by
  intro q
  induction q with
  | root ti lks =>
    intro hq
    rw [hq.1]
    simpa [NewPath, GoPage.title, hq.1] using PathN.refl s
  | child ti lks par ih =>
    intro hq
    have hp := ih hq.2.2
    have := pathN_snoc hp hq.2.1
    simpa [NewPath, GoPage.title] using this

theorem wf_child {L : String → List String} {s : String} {x : String}
    {lks : List String} {top : GoPage} (htop : Wf L s top)
    (hlk : lks = L x) (hx : x ∈ L top.title) :
    Wf L s (GoPage.child x lks top) :=
  ⟨by simpa using hlk, by simpa [GoPage.title] using hx, htop⟩

/-! ## The loop measure -/

theorem remain_cons (U : List String) (hU : U.Nodup) (a : String)
    (vis : List String) (haU : a ∈ U) (hav : a ∉ vis) :
    remain U (a :: vis) + 1 = remain U vis := by
  induction U with
  | nil => simp at haU
  | cons u us ih =>
    obtain ⟨hun, hus⟩ := List.nodup_cons.mp hU
    by_cases hua : u = a
    · subst hua
      have h1 : (decide (u ∉ u :: vis)) = false := by simp
      have h2 : (decide (u ∉ vis)) = true := by simpa using hav
      have h3 : List.filter (fun x => decide (x ∉ u :: vis)) us
          = List.filter (fun x => decide (x ∉ vis)) us := by
        refine List.filter_congr ?_
        intro x hx
        have hxu : x ≠ u := fun he => hun (he ▸ hx)
        simp [List.mem_cons, hxu]
      simp only [remain, List.filter_cons, h1, h2, h3]
      simp
    · have h1 : (decide (u ∉ a :: vis)) = (decide (u ∉ vis)) := by
        have : (u ∈ a :: vis) ↔ (u ∈ vis) := by
          constructor
          · intro h
            cases List.mem_cons.mp h with
            | inl h => exact absurd h hua
            | inr h => exact h
          · exact fun h => List.mem_cons_of_mem _ h
        simp [this]
      have haU' : a ∈ us := by
        cases List.mem_cons.mp haU with
        | inl h => exact absurd h.symm hua
        | inr h => exact h
      have htail := ih hus haU'
      simp only [remain, List.filter_cons, h1] at htail ⊢
      by_cases hd : u ∈ vis
      · have hd1 : decide (u ∉ vis) = false := by simp [hd]
        simpa [hd1] using htail
      · have hd1 : decide (u ∉ vis) = true := by simp [hd]
        simp only [hd1, if_true, List.length_cons]
        omega

theorem remain_block (U : List String) (hU : U.Nodup) :
    ∀ (nw vis : List String), nw.Nodup →
      (∀ x ∈ nw, x ∈ U ∧ x ∉ vis) →
      remain U (nw ++ vis) + nw.length = remain U vis := by
  intro nw
  induction nw with
  | nil => intro vis _ _; simp
  | cons a nw ih =>
    intro vis hnodup hmem
    obtain ⟨han, hnd⟩ := List.nodup_cons.mp hnodup
    have h1 : remain U (a :: (nw ++ vis)) + 1 = remain U (nw ++ vis) := by
      refine remain_cons U hU a (nw ++ vis) (hmem a (List.mem_cons_self _ _)).1 ?_
      intro hc
      cases List.mem_append.mp hc with
      | inl h => exact han h
      | inr h => exact (hmem a (List.mem_cons_self _ _)).2 h
    have h2 : remain U (nw ++ vis) + nw.length = remain U vis := by
      refine ih vis hnd ?_
      intro x hx
      exact hmem x (List.mem_cons_of_mem _ hx)
    simp only [List.cons_append, List.length_cons]
    omega

/-! ## Loop outcome lemmas -/

theorem walkLoop_no_startError (src : Src) (t : String) :
    ∀ fuel queue vis log,
      (walkLoop src t fuel queue vis log).1 ≠ WalkOut.startError := by
  intro fuel
  induction fuel with
  | zero => intro queue vis log; simp [walkLoop]
  | succ n ih =>
    intro queue vis log
    cases queue with
    | nil => simp [walkLoop]
    | cons top rest =>
      rcases hfo : fanout src t top top.links vis with ⟨v2, enq, fet, hit⟩
      cases hit with
      | some tp => simp [walkLoop, hfo]
      | none =>
        simp only [walkLoop, hfo]
        exact ih (rest ++ enq) v2 (log ++ fet)

/-- With fuel at least the queue length plus the unvisited part of a closed
finite universe (plus one), the dequeue loop cannot exhaust its fuel. -/
theorem walkLoop_no_diverge (src : Src) (t : String) (U : List String)
    (hU : U.Nodup) (hUcl : ∀ x ∈ U, ∀ y ∈ src.edges x, y ∈ U) :
    ∀ fuel queue vis,
      (∀ q ∈ queue, q.title ∈ U ∧ q.links = src.edges q.title) →
      (∀ x ∈ vis, x ∈ U) →
      queue.length + remain U vis + 1 ≤ fuel →
      ∀ log, (walkLoop src t fuel queue vis log).1 ≠ WalkOut.diverge := by
  intro fuel
  induction fuel with
  | zero => intro queue vis _ _ hfuel; omega
  | succ n ih =>
    intro queue vis hq hv hfuel log
    cases queue with
    | nil => simp [walkLoop]
    | cons top rest =>
      rcases hfo : fanout src t top top.links vis with ⟨v2, enq, fet, hit⟩
      cases hit with
      | some tp => simp [walkLoop, hfo]
      | none =>
        simp only [walkLoop, hfo]
        obtain ⟨nw, ha, hb, hc, hd, he⟩ := fanout_spec src t top top.links vis
        rw [hfo] at ha hb he
        simp only at ha hb he
        have htopU : top.title ∈ U := (hq top (List.mem_cons_self _ _)).1
        have htopl : top.links = src.edges top.title :=
          (hq top (List.mem_cons_self _ _)).2
        have hnwU : ∀ x ∈ nw, x ∈ U := by
          intro x hx
          have hm := (hd x hx).1
          rw [htopl] at hm
          exact hUcl top.title htopU x hm
        refine ih (rest ++ enq) v2 ?_ ?_ ?_ (log ++ fet)
        · intro q hqmem
          cases List.mem_append.mp hqmem with
          | inl h => exact hq q (List.mem_cons_of_mem _ h)
          | inr h =>
            obtain ⟨x, lks, hq1, hq2⟩ := he q h
            subst hq1
            constructor
            · have hmem2 : (GoPage.child x lks top).title ∈ List.map GoPage.title enq :=
                List.mem_map_of_mem GoPage.title h
              rw [hb] at hmem2
              exact hnwU _ (List.mem_reverse.mp hmem2)
            · simp [GoPage.links, GoPage.title, Src.edges, hq2]
        · intro x hx
          rw [ha] at hx
          cases List.mem_append.mp hx with
          | inl h => exact hnwU x h
          | inr h => exact hv x h
        · have hlen : enq.length = nw.length := by
            have := congrArg List.length hb
            simpa using this
          have hblock : remain U (nw ++ vis) + nw.length = remain U vis :=
            remain_block U hU nw vis hc (fun x hx => ⟨hnwU x hx, (hd x hx).2.1⟩)
          rw [ha]
          simp only [List.length_append, List.length_cons] at hfuel ⊢
          omega

/-- If the target is unreachable (along fetched edge lists) from the start,
the dequeue loop never returns a path, provided every queued page is
reachable from the start and carries the edge list of its title. -/
theorem walkLoop_no_path (src : Src) (t s : String)
    (hunreach : ∀ n, ¬ PathN src.edges s t n) :
    ∀ fuel queue vis log,
      (∀ q ∈ queue, (∃ n, PathN src.edges s q.title n) ∧
        q.links = src.edges q.title) →
      ∀ p, (walkLoop src t fuel queue vis log).1 ≠ WalkOut.path p := by
  intro fuel
  induction fuel with
  | zero => intro queue vis log _ p; simp [walkLoop]
  | succ n ih =>
    intro queue vis log hq p
    cases queue with
    | nil => simp [walkLoop]
    | cons top rest =>
      rcases hfo : fanout src t top top.links vis with ⟨v2, enq, fet, hit⟩
      cases hit with
      | some tp =>
        exfalso
        have hhit := fanout_hit_eq src t top top.links vis tp (by rw [hfo])
        obtain ⟨hr, hq0⟩ := hq top (List.mem_cons_self _ _)
        obtain ⟨m, hm⟩ := hr
        rw [hq0] at hhit
        exact hunreach (m + 1) (pathN_snoc hm hhit.2)
      | none =>
        simp only [walkLoop, hfo]
        refine ih (rest ++ enq) v2 (log ++ fet) ?_ p
        obtain ⟨nw, ha, hb, hc, hd, he⟩ := fanout_spec src t top top.links vis
        rw [hfo] at hb he
        simp only at hb he
        obtain ⟨hrtop, hltop⟩ := hq top (List.mem_cons_self _ _)
        intro q hqmem
        cases List.mem_append.mp hqmem with
        | inl h => exact hq q (List.mem_cons_of_mem _ h)
        | inr h =>
          obtain ⟨x, lks, hq1, hq2⟩ := he q h
          subst hq1
          have hxnw : (GoPage.child x lks top).title ∈ nw := by
            have hmem2 : (GoPage.child x lks top).title ∈ List.map GoPage.title enq :=
              List.mem_map_of_mem GoPage.title h
            rw [hb] at hmem2
            exact List.mem_reverse.mp hmem2
          have hxl : x ∈ src.edges top.title := by
            have := (hd _ hxnw).1
            simp only [GoPage.title] at this
            rwa [hltop] at this
          constructor
          · obtain ⟨m, hm⟩ := hrtop
            exact ⟨m + 1, by simpa [GoPage.title] using pathN_snoc hm hxl⟩
          · simp [GoPage.links, GoPage.title, Src.edges, hq2]

theorem remain_nil_right (U : List String) : remain U [] = U.length := by
  simp [remain]

/-- C6: on a finite discoverable graph (a nodup universe closed under the
fetched edge lists) whose target is unreachable from the start, with enough
fuel for the exhaustion bound, Walk ends the dequeue loop and reports the
no-path result — it neither diverges nor crashes nor returns a path. -/
theorem walk_unreachable_noPath (src : Src) (s t : String) (U : List String)
    (fuel : Nat) (hres : src.resolve s = some s) (hfet : (src.fetch s).isSome)
    (hU : U.Nodup) (hsU : s ∈ U)
    (hUcl : ∀ x ∈ U, ∀ y ∈ src.edges x, y ∈ U)
    (hfuel : U.length + 2 ≤ fuel)
    (hunreach : ∀ n, ¬ PathN src.edges s t n) :
    (walk src s t fuel).1 = WalkOut.noPath := by
  have hst : s ≠ t := by
    intro h
    subst h
    exact hunreach 1 (PathN.refl s)
  obtain ⟨ls, hls⟩ := Option.isSome_iff_exists.mp hfet
  have hred : walk src s t fuel = walkLoop src t fuel [.root s ls] [] [s] := by
    simp [walk, hres, hst, hls]
  have hqU : ∀ q ∈ [GoPage.root s ls],
      q.title ∈ U ∧ q.links = src.edges q.title := by
    intro q hq
    simp only [List.mem_singleton] at hq
    subst hq
    refine ⟨by simpa [GoPage.title] using hsU, ?_⟩
    simp [GoPage.links, GoPage.title, Src.edges, hls]
  have hnod := walkLoop_no_diverge src t U hU hUcl fuel [.root s ls] [] hqU
    (by simp) (by rw [remain_nil_right]; simp only [List.length_singleton]; omega) [s]
  have hnse := walkLoop_no_startError src t fuel [.root s ls] [] [s]
  have hqr : ∀ q ∈ [GoPage.root s ls],
      (∃ n, PathN src.edges s q.title n) ∧ q.links = src.edges q.title := by
    intro q hq
    simp only [List.mem_singleton] at hq
    subst hq
    refine ⟨⟨1, by simpa [GoPage.title] using PathN.refl s⟩, ?_⟩
    simp [GoPage.links, GoPage.title, Src.edges, hls]
  have hnp := walkLoop_no_path src t s hunreach fuel [.root s ls] [] [s] hqr
  rw [hred]
  cases h : (walkLoop src t fuel [.root s ls] [] [s]).1 with
  | path p => exact absurd h (hnp p)
  | noPath => rfl
  | startError => exact absurd h hnse
  | diverge => exact absurd h hnod

/-- C6 witness: on the one-edge graph A to B, Z is unreachable from A, and
Walk(A, Z) with the bound's fuel returns the no-path result. -/
theorem walk_unreachable_noPath_witness :
    (walk (mkSrc LW) "A" "Z" 4).1 = WalkOut.noPath := by
  refine walk_unreachable_noPath (mkSrc LW) "A" "Z" ["A", "B"] 4 rfl rfl
    (by decide) (by decide) (by decide) (by decide) ?_
  intro n hp
  have hcl : ∀ (a x : String) (m : Nat), PathN (Src.edges (mkSrc LW)) a x m →
      a = "A" ∨ a = "B" → x = "A" ∨ x = "B" := by
    intro a x m hp2
    induction hp2 with
    | refl z => exact fun h => h
    | step hE p2 ih =>
      intro ha
      apply ih
      have hE' := hE
      simp only [Src.edges, mkSrc, Option.getD] at hE'
      cases ha with
      | inl h =>
        subst h
        simp [LW] at hE'
        exact Or.inr hE'
      | inr h =>
        subst h
        simp [LW] at hE'
  have hz := hcl "A" "Z" n hp (Or.inl rfl)
  cases hz with
  | inl h => exact absurd h (by decide)
  | inr h => exact absurd h (by decide)

/-- C5: on a finite discoverable universe with adequate fuel, the
caller-visible result of Walk is always exactly one of a concrete path, the
no-path result, or a start error, and a start error occurs only when the
start's own resolution or link fetch failed; per-neighbor failures never
surface. -/
theorem walk_results (src : Src) (s t : String) (U : List String) (fuel : Nat)
    (hU : U.Nodup)
    (hcs : ∀ cs, src.resolve s = some cs → cs ∈ U)
    (hUcl : ∀ x ∈ U, ∀ y ∈ src.edges x, y ∈ U)
    (hfuel : U.length + 2 ≤ fuel) :
    (∃ p, (walk src s t fuel).1 = WalkOut.path p) ∨
    (walk src s t fuel).1 = WalkOut.noPath ∨
    ((walk src s t fuel).1 = WalkOut.startError ∧
      (src.resolve s = none ∨
        ∃ cs, src.resolve s = some cs ∧ src.fetch cs = none)) := by
  cases hres : src.resolve s with
  | none =>
    right; right
    exact ⟨by simp [walk, hres], Or.inl rfl⟩
  | some cs =>
    by_cases hst : s = t
    · subst hst
      left
      exact ⟨[cs], by simp [walk, hres, NewPath]⟩
    · cases hfet : src.fetch cs with
      | none =>
        right; right
        exact ⟨by simp [walk, hres, hst, hfet], Or.inr ⟨cs, rfl, hfet⟩⟩
      | some ls =>
        have hred : walk src s t fuel = walkLoop src t fuel [.root cs ls] [] [cs] := by
          simp [walk, hres, hst, hfet]
        have hqU : ∀ q ∈ [GoPage.root cs ls],
            q.title ∈ U ∧ q.links = src.edges q.title := by
          intro q hq
          simp only [List.mem_singleton] at hq
          subst hq
          refine ⟨by simpa [GoPage.title] using hcs cs hres, ?_⟩
          simp [GoPage.links, GoPage.title, Src.edges, hfet]
        have hnod := walkLoop_no_diverge src t U hU hUcl fuel [.root cs ls] [] hqU
          (by simp)
          (by rw [remain_nil_right]; simp only [List.length_singleton]; omega) [cs]
        have hnse := walkLoop_no_startError src t fuel [.root cs ls] [] [cs]
        rw [hred]
        cases h : (walkLoop src t fuel [.root cs ls] [] [cs]).1 with
        | path p => exact Or.inl ⟨p, rfl⟩
        | noPath => exact Or.inr (Or.inl rfl)
        | startError => exact absurd h hnse
        | diverge => exact absurd h hnod

/-- C5 witness: the spec scenario — the fetch of neighbor C fails
transiently, C is merely excluded from the frontier, and Walk(A, D) still
succeeds via B with the concrete path A, B, D. -/
theorem walk_results_witness :
    ((∃ p, (walk srcC5 "A" "D" 6).1 = WalkOut.path p) ∨
      (walk srcC5 "A" "D" 6).1 = WalkOut.noPath ∨
      ((walk srcC5 "A" "D" 6).1 = WalkOut.startError ∧
        (srcC5.resolve "A" = none ∨
          ∃ cs, srcC5.resolve "A" = some cs ∧ srcC5.fetch cs = none))) ∧
    walk srcC5 "A" "D" 6 = (.path ["A", "B", "D"], ["A", "B", "C"]) := by
  constructor
  · refine walk_results srcC5 "A" "D" ["A", "B", "C", "D"] 6 (by decide) ?_
      (by decide) (by decide)
    intro cs h
    have h2 : cs = "A" := by
      have h3 : some "A" = some cs := h
      exact (Option.some.inj h3).symm
    subst h2
    decide
  · decide

/-- C4 witness: on the two-node cycle, B (not the start) is fetched at most
once and the start A at most twice. -/
theorem walk_fetch_dedup_witness :
    (walk (mkSrc LC4) "A" "Z" 5).2.count "B" ≤ 1 ∧
    (walk (mkSrc LC4) "A" "Z" 5).2.count "A" ≤ 2 :=
  ⟨(walk_fetch_dedup LC4 "A" "Z" "B" 5).1 (by decide),
    (walk_fetch_dedup LC4 "A" "Z" "B" 5).2⟩

/-! ## Level structure of the search (shortest-path argument)

The ghost state of the loop is the list D of already dequeued
(title, depth) pairs; the enqueue history is D followed by the pairs of the
current queue.  The key invariants: the history's first occurrence of a
title carries that title's exact graph distance, every dequeued title's
links land in the visited set (or are the start), and depths are sorted. -/

theorem bfs_layer (L : String → List String) (s : String)
    (D : List (String × Nat)) (top : GoPage) (rest : List GoPage)
    (vis : List String)
    (hsort : List.Sorted (· ≤ ·)
      ((top :: rest).map (fun q => (NewPath q).length)))
    (hfirst : ∀ (x : String) (pr0 : String × Nat),
      (D ++ (top :: rest).map (fun q => (q.title, (NewPath q).length))).find?
        (fun pr => pr.1 == x) = some pr0 →
      PathN L s x pr0.2 ∧ ∀ j, PathN L s x j → pr0.2 ≤ j)
    (hvisE : ∀ x : String, (x = s ∨ x ∈ vis) ↔
      x ∈ (D ++ (top :: rest).map
        (fun q => (q.title, (NewPath q).length))).map Prod.fst)
    (hDexp : ∀ pr ∈ D, ∀ y ∈ L pr.1, y = s ∨ y ∈ vis) :
    ∀ m, m ≤ (NewPath top).length → ∀ x, PathN L s x m →
      (∀ j, PathN L s x j → m ≤ j) → (x = s ∨ x ∈ vis) := by
  intro m
  induction m using Nat.strong_induction_on with
  | _ m ih =>
    intro hm x hp hmin
    have h1 : 1 ≤ m := pathN_one_le hp
    by_cases hm1 : m = 1
    · subst hm1
      exact Or.inl (pathN_eq_of_one hp)
    · have h2 : 2 ≤ m := by omega
      obtain ⟨w, hpw, hxw⟩ := pathN_snoc_decomp hp (n := m - 1) (by omega) (by omega)
      have hwmin : ∀ j, PathN L s w j → m - 1 ≤ j := by
        intro j hj
        have := hmin (j + 1) (pathN_snoc hj hxw)
        omega
      have hw : w = s ∨ w ∈ vis := ih (m - 1) (by omega) (by omega) w hpw hwmin
      have hwEP := (hvisE w).mp hw
      obtain ⟨pr1, hpr1mem, hpr1fst⟩ := List.mem_map.mp hwEP
      obtain ⟨pr0, hfind⟩ : ∃ pr0,
          (D ++ (top :: rest).map
            (fun q => (q.title, (NewPath q).length))).find?
            (fun pr => pr.1 == w) = some pr0 := by
        cases hfind : (D ++ (top :: rest).map
            (fun q => (q.title, (NewPath q).length))).find?
            (fun pr => pr.1 == w) with
        | none =>
          exfalso
          have := List.find?_eq_none.mp hfind pr1 hpr1mem
          simp [hpr1fst] at this
        | some pr0 => exact ⟨pr0, rfl⟩
      have hbeq := List.find?_some hfind
      simp only [beq_iff_eq] at hbeq
      have hpr0w : pr0.1 = w := hbeq
      obtain ⟨hattain, hminfirst⟩ := hfirst w pr0 hfind
      have hdep : pr0.2 = m - 1 :=
        le_antisymm (hminfirst (m - 1) hpw) (hwmin pr0.2 hattain)
      have hpr0mem := List.mem_of_find?_eq_some hfind
      have hpr0D : pr0 ∈ D := by
        cases List.mem_append.mp hpr0mem with
        | inl h => exact h
        | inr h =>
          exfalso
          obtain ⟨q, hq, hqe⟩ := List.mem_map.mp h
          have hdq : (NewPath top).length ≤ (NewPath q).length := by
            rcases List.mem_cons.mp hq with h' | h'
            · rw [h']
            · simp only [List.map_cons] at hsort
              exact (List.sorted_cons.mp hsort).1 _
                (List.mem_map_of_mem (fun q => (NewPath q).length) h')
          have hq2 : (NewPath q).length = m - 1 := by
            rw [← hqe] at hdep
            simpa using hdep
          omega
      exact hDexp pr0 hpr0D x (by rw [hpr0w]; exact hxw)

/-- Any title outside the visited set (and distinct from the start) lies
strictly below no level: every path to it is longer than the depth of the
queue head. -/
theorem bfs_low (L : String → List String) (s : String)
    (D : List (String × Nat)) (top : GoPage) (rest : List GoPage)
    (vis : List String)
    (hsort : List.Sorted (· ≤ ·)
      ((top :: rest).map (fun q => (NewPath q).length)))
    (hfirst : ∀ (x : String) (pr0 : String × Nat),
      (D ++ (top :: rest).map (fun q => (q.title, (NewPath q).length))).find?
        (fun pr => pr.1 == x) = some pr0 →
      PathN L s x pr0.2 ∧ ∀ j, PathN L s x j → pr0.2 ≤ j)
    (hvisE : ∀ x : String, (x = s ∨ x ∈ vis) ↔
      x ∈ (D ++ (top :: rest).map
        (fun q => (q.title, (NewPath q).length))).map Prod.fst)
    (hDexp : ∀ pr ∈ D, ∀ y ∈ L pr.1, y = s ∨ y ∈ vis)
    (x : String) (hx : ¬(x = s ∨ x ∈ vis)) :
    ∀ j, PathN L s x j → (NewPath top).length + 1 ≤ j := by
  intro j hj
  by_contra hcon
  push_neg at hcon
  classical
  have hex : ∃ n, PathN L s x n := ⟨j, hj⟩
  have hT := Nat.find_spec hex
  have hTmin : ∀ k, PathN L s x k → Nat.find hex ≤ k := fun k hk => Nat.find_le hk
  have hTd : Nat.find hex ≤ (NewPath top).length :=
    le_trans (hTmin j hj) (by omega)
  exact hx (bfs_layer L s D top rest vis hsort hfirst hvisE hDexp
    (Nat.find hex) hTd x hT hTmin)

theorem sorted_of_all_eq (l : List Nat) (c : Nat) (h : ∀ x ∈ l, x = c) :
    List.Sorted (· ≤ ·) l := by
  induction l with
  | nil => exact List.sorted_nil
  | cons a l2 ih =>
    rw [List.sorted_cons]
    refine ⟨fun b hb => ?_, ih (fun x hx => h x (List.mem_cons_of_mem _ hx))⟩
    rw [h a (List.mem_cons_self _ _), h b (List.mem_cons_of_mem _ hb)]

/-- Main induction for shortest-path correctness of the dequeue loop over a
failure-free source: under the level invariants, the loop returns a path
whose length is the exact graph distance from the start to the target. -/
theorem walkLoop_shortest_aux (L : String → List String) (s t : String)
    (U : List String) (hU : U.Nodup)
    (hUcl : ∀ x ∈ U, ∀ y ∈ L x, y ∈ U) (hst : s ≠ t) :
    ∀ fuel (D : List (String × Nat)) (queue : List GoPage)
      (vis log : List String),
      (∀ q ∈ queue, Wf L s q) →
      List.Sorted (· ≤ ·) (queue.map (fun q => (NewPath q).length)) →
      (∀ q1 ∈ queue, ∀ q2 ∈ queue,
        (NewPath q2).length ≤ (NewPath q1).length + 1) →
      (∀ pr ∈ D, ∀ q ∈ queue, pr.2 ≤ (NewPath q).length) →
      (∀ (x : String) (pr0 : String × Nat),
        (D ++ queue.map (fun q => (q.title, (NewPath q).length))).find?
          (fun pr => pr.1 == x) = some pr0 →
        PathN L s x pr0.2 ∧ ∀ j, PathN L s x j → pr0.2 ≤ j) →
      (∀ x : String, (x = s ∨ x ∈ vis) ↔
        x ∈ (D ++ queue.map
          (fun q => (q.title, (NewPath q).length))).map Prod.fst) →
      (∀ pr ∈ D, t ∉ L pr.1 ∧ ∀ y ∈ L pr.1, y = s ∨ y ∈ vis) →
      t ∉ vis →
      (∀ q ∈ queue, q.title ∈ U) →
      (∀ x ∈ vis, x ∈ U) →
      queue.length + remain U vis + 1 ≤ fuel →
      (∃ n, PathN L s t n) →
      ∃ p log2, walkLoop (mkSrc L) t fuel queue vis log = (.path p, log2) ∧
        PathN L s t p.length ∧ ∀ j, PathN L s t j → p.length ≤ j := by
  intro fuel
  induction fuel with
  | zero =>
    intro D queue vis log _ _ _ _ _ _ _ _ _ _ hfuel _
    omega
  | succ n ih =>
    intro D queue vis log hwf hsort hband hDq hfirst hvisE hDexp htvis hUq
      hUvis hfuel hreach
    cases queue with
    | nil =>
      exfalso
      obtain ⟨m0, hm0⟩ := hreach
      have hclose : ∀ m, ∀ x : String, PathN L s x m → (x = s ∨ x ∈ vis) := by
        intro m
        induction m using Nat.strong_induction_on with
        | _ m ihm =>
          intro x hp
          have h1 : 1 ≤ m := pathN_one_le hp
          by_cases hm1 : m = 1
          · subst hm1
            exact Or.inl (pathN_eq_of_one hp)
          · obtain ⟨w, hpw, hxw⟩ :=
              pathN_snoc_decomp hp (n := m - 1) (by omega) (by omega)
            have hw := ihm (m - 1) (by omega) w hpw
            have hwD := (hvisE w).mp hw
            simp only [List.map_nil, List.append_nil] at hwD
            obtain ⟨pr, hpr, hfst⟩ := List.mem_map.mp hwD
            exact (hDexp pr hpr).2 x (by rw [hfst]; exact hxw)
      cases hclose m0 t hm0 with
      | inl h => exact hst h.symm
      | inr h => exact htvis h
    | cons top rest =>
      have hwftop := hwf top (List.mem_cons_self _ _)
      have hlinks : top.links = L top.title := wf_links top hwftop
      have hptop : PathN L s top.title (NewPath top).length := wf_pathN top hwftop
      have hDexpw : ∀ pr ∈ D, ∀ y ∈ L pr.1, y = s ∨ y ∈ vis :=
        fun pr hpr => (hDexp pr hpr).2
      rcases hfo : fanout (mkSrc L) t top top.links vis with ⟨v2, enq, fet, hit⟩
      obtain ⟨nw, ha, hb, hc, hd, he⟩ := fanout_spec (mkSrc L) t top top.links vis
      rw [hfo] at ha hb he
      simp only at ha hb he
      cases hit with
      | some tp =>
        obtain ⟨htp, htl⟩ :=
          fanout_hit_eq (mkSrc L) t top top.links vis tp (by rw [hfo])
        subst htp
        refine ⟨NewPath top ++ [t], log ++ fet, ?_, ?_, ?_⟩
        · simp only [walkLoop, hfo, NewPath]
        · have := pathN_snoc hptop (hlinks ▸ htl)
          simpa using this
        · intro j hj
          have hxor : ¬(t = s ∨ t ∈ vis) := by
            intro hcon
            cases hcon with
            | inl h => exact hst h.symm
            | inr h => exact htvis h
          have hlow := bfs_low L s D top rest vis hsort hfirst hvisE hDexpw
            t hxor j hj
          simpa using hlow
      | none =>
        have htnl : t ∉ top.links := fun hmem =>
          fanout_hit_of_mem (mkSrc L) t top top.links vis htvis hmem
            (by rw [hfo])
        have henq : ∀ q ∈ enq, ∃ x, q = GoPage.child x (L x) top ∧ x ∈ nw := by
          intro q hq
          obtain ⟨x, lks, hq1, hq2⟩ := he q hq
          have hlx : lks = L x := by
            have : some (L x) = some lks := by simpa [mkSrc] using hq2
            exact (Option.some.inj this).symm
          subst hq1
          refine ⟨x, by rw [hlx], ?_⟩
          have hmem2 : (GoPage.child x lks top).title
              ∈ List.map GoPage.title enq :=
            List.mem_map_of_mem GoPage.title hq
          rw [hb] at hmem2
          simpa [GoPage.title] using List.mem_reverse.mp hmem2
        have hdep_enq : ∀ q ∈ enq,
            (NewPath q).length = (NewPath top).length + 1 := by
          intro q hq
          obtain ⟨x, hq1, _⟩ := henq q hq
          subst hq1
          simp [NewPath]
        have hnw_links : ∀ x ∈ nw, x ∈ L top.title :=
          fun x hx => hlinks ▸ (hd x hx).1
        have hnw_nvis : ∀ x ∈ nw, x ∉ vis := fun x hx => (hd x hx).2.1
        have hnw_nt : ∀ x ∈ nw, x ≠ t := fun x hx => (hd x hx).2.2
        have hnwU : ∀ x ∈ nw, x ∈ U :=
          fun x hx => hUcl top.title (hUq top (List.mem_cons_self _ _)) x
            (hnw_links x hx)
        have hcov : ∀ y ∈ top.links, y ∈ v2 := by
          intro y hy
          have hcv := fanout_covers (mkSrc L) t top top.links vis
            (by rw [hfo]) y hy (by simp [mkSrc])
          rw [hfo] at hcv
          exact hcv
        have hd0le : ∀ q ∈ rest, (NewPath top).length ≤ (NewPath q).length := by
          intro q hq
          simp only [List.map_cons] at hsort
          exact (List.sorted_cons.mp hsort).1 _
            (List.mem_map_of_mem (fun q => (NewPath q).length) hq)
        have henq_title : ∀ q ∈ enq, q.title ∈ nw := by
          intro q hq
          obtain ⟨x, hq1, hxnw⟩ := henq q hq
          subst hq1
          simpa [GoPage.title] using hxnw
        have hfst : (enq.map (fun q => (q.title, (NewPath q).length))).map
            Prod.fst = nw.reverse := by
          rw [List.map_map]
          exact hb
        have hEP' : (D ++ [(top.title, (NewPath top).length)])
              ++ (rest ++ enq).map (fun q => (q.title, (NewPath q).length))
            = (D ++ (top :: rest).map (fun q => (q.title, (NewPath q).length)))
              ++ enq.map (fun q => (q.title, (NewPath q).length)) := by
          simp [List.map_append, List.map_cons, List.append_assoc]
        have hxorE : ∀ x : String,
            x ∉ (D ++ (top :: rest).map
              (fun q => (q.title, (NewPath q).length))).map Prod.fst →
            ¬(x = s ∨ x ∈ vis) := by
          intro x hx hcon
          exact hx ((hvisE x).mp hcon)
        simp only [walkLoop, hfo]
        refine ih (D ++ [(top.title, (NewPath top).length)]) (rest ++ enq) v2
          (log ++ fet) ?_ ?_ ?_ ?_ ?_ ?_ ?_ ?_ ?_ ?_ ?_ hreach
        · -- Wf
          intro q hq
          cases List.mem_append.mp hq with
          | inl h => exact hwf q (List.mem_cons_of_mem _ h)
          | inr h =>
            obtain ⟨x, hq1, hxnw⟩ := henq q h
            subst hq1
            exact wf_child hwftop rfl (hnw_links x hxnw)
        · -- sorted
          rw [List.map_append]
          show List.Pairwise (· ≤ ·) _
          refine List.pairwise_append.mpr ⟨?_, ?_, ?_⟩
          · simp only [List.map_cons] at hsort
            exact (List.sorted_cons.mp hsort).2
          · refine sorted_of_all_eq _ ((NewPath top).length + 1) ?_
            intro x hx
            obtain ⟨q, hq, hqe⟩ := List.mem_map.mp hx
            rw [← hqe]
            exact hdep_enq q hq
          · intro a haa b hbb
            obtain ⟨q1, hq1, hqe1⟩ := List.mem_map.mp haa
            obtain ⟨q2, hq2, hqe2⟩ := List.mem_map.mp hbb
            rw [← hqe1, ← hqe2, hdep_enq q2 hq2]
            exact hband top (List.mem_cons_self _ _) q1
              (List.mem_cons_of_mem _ hq1)
        · -- band
          intro q1 hq1 q2 hq2
          cases List.mem_append.mp hq1 with
          | inl h1 =>
            cases List.mem_append.mp hq2 with
            | inl h2 =>
              exact hband q1 (List.mem_cons_of_mem _ h1) q2
                (List.mem_cons_of_mem _ h2)
            | inr h2 =>
              rw [hdep_enq q2 h2]
              have := hd0le q1 h1
              omega
          | inr h1 =>
            rw [hdep_enq q1 h1]
            cases List.mem_append.mp hq2 with
            | inl h2 =>
              have := hband top (List.mem_cons_self _ _) q2
                (List.mem_cons_of_mem _ h2)
              omega
            | inr h2 =>
              rw [hdep_enq q2 h2]
              omega
        · -- D before queue
          intro pr hpr q hq
          have hdq : (NewPath q).length = (NewPath top).length + 1 ∨
              (NewPath top).length ≤ (NewPath q).length := by
            cases List.mem_append.mp hq with
            | inl h => exact Or.inr (hd0le q h)
            | inr h => exact Or.inl (hdep_enq q h)
          cases List.mem_append.mp hpr with
          | inl h =>
            have := hDq pr h top (List.mem_cons_self _ _)
            cases hdq with
            | inl h2 => omega
            | inr h2 => omega
          | inr h =>
            simp only [List.mem_singleton] at h
            subst h
            simp only
            cases hdq with
            | inl h2 => omega
            | inr h2 => omega
        · -- first occurrence carries the distance
          intro x pr0 hfind
          rw [hEP'] at hfind
          rw [List.find?_append] at hfind
          cases hf1 : (D ++ (top :: rest).map
              (fun q => (q.title, (NewPath q).length))).find?
              (fun pr => pr.1 == x) with
          | some pr1 =>
            rw [hf1] at hfind
            simp only [Option.or_some] at hfind
            exact (Option.some.inj hfind) ▸ hfirst x pr1 hf1
          | none =>
            rw [hf1] at hfind
            simp only [Option.none_or] at hfind
            have hxE : x ∉ (D ++ (top :: rest).map
                (fun q => (q.title, (NewPath q).length))).map Prod.fst := by
              intro hx
              obtain ⟨pr, hpr, hfstx⟩ := List.mem_map.mp hx
              have := List.find?_eq_none.mp hf1 pr hpr
              simp [hfstx] at this
            have hbeq := List.find?_some hfind
            simp only [beq_iff_eq] at hbeq
            have hpr0mem := List.mem_of_find?_eq_some hfind
            obtain ⟨q, hq, hqe⟩ := List.mem_map.mp hpr0mem
            have hx_nw : x ∈ nw := by
              have := henq_title q hq
              rw [← hbeq, ← hqe]
              simpa using this
            have hpr02 : pr0.2 = (NewPath top).length + 1 := by
              rw [← hqe]
              simpa using hdep_enq q hq
            constructor
            · rw [hpr02, ← hbeq, ← hqe]
              simp only
              have : PathN L s q.title ((NewPath top).length + 1) := by
                rw [← hqe] at hbeq
                simp only at hbeq
                exact hbeq ▸ pathN_snoc hptop (hnw_links x hx_nw)
              simpa using this
            · intro j hj
              rw [hpr02]
              exact bfs_low L s D top rest vis hsort hfirst hvisE hDexpw
                x (hxorE x hxE) j hj
        · -- visited set matches history titles
          intro x
          rw [hEP', List.map_append, hfst]
          constructor
          · intro hcon
            cases hcon with
            | inl h =>
              exact List.mem_append_left _ ((hvisE x).mp (Or.inl h))
            | inr h =>
              rw [ha] at h
              cases List.mem_append.mp h with
              | inl h2 =>
                exact List.mem_append_right _ (List.mem_reverse.mpr h2)
              | inr h2 =>
                exact List.mem_append_left _ ((hvisE x).mp (Or.inr h2))
          · intro hmem
            cases List.mem_append.mp hmem with
            | inl h2 =>
              cases (hvisE x).mpr h2 with
              | inl h3 => exact Or.inl h3
              | inr h3 =>
                refine Or.inr ?_
                rw [ha]
                exact List.mem_append_right _ h3
            | inr h2 =>
              refine Or.inr ?_
              rw [ha]
              exact List.mem_append_left _ (List.mem_reverse.mp h2)
        · -- expanded nodes
          intro pr hpr
          cases List.mem_append.mp hpr with
          | inl h =>
            refine ⟨(hDexp pr h).1, fun y hy => ?_⟩
            cases (hDexp pr h).2 y hy with
            | inl h2 => exact Or.inl h2
            | inr h2 =>
              refine Or.inr ?_
              rw [ha]
              exact List.mem_append_right _ h2
          | inr h =>
            simp only [List.mem_singleton] at h
            subst h
            simp only
            constructor
            · rw [← hlinks]
              exact htnl
            · intro y hy
              refine Or.inr ?_
              rw [← hlinks] at hy
              exact hcov y hy
        · -- target unvisited
          intro hcon
          rw [ha] at hcon
          cases List.mem_append.mp hcon with
          | inl h => exact hnw_nt t h rfl
          | inr h => exact htvis h
        · -- queue titles in universe
          intro q hq
          cases List.mem_append.mp hq with
          | inl h => exact hUq q (List.mem_cons_of_mem _ h)
          | inr h => exact hnwU q.title (henq_title q h)
        · -- visited titles in universe
          intro x hx
          rw [ha] at hx
          cases List.mem_append.mp hx with
          | inl h => exact hnwU x h
          | inr h => exact hUvis x h
        · -- fuel
          have hlen : enq.length = nw.length := by
            have := congrArg List.length hb
            simpa using this
          have hblock : remain U (nw ++ vis) + nw.length = remain U vis :=
            remain_block U hU nw vis hc
              (fun x hx => ⟨hnwU x hx, hnw_nvis x hx⟩)
          rw [ha]
          simp only [List.length_append, List.length_cons] at hfuel ⊢
          omega

/-- C1: on every finite graph presented by a failure-free neighbor source
(a nodup universe closed under the edge function) with a target reachable
from the start and fuel at least the exhaustion bound, Walk returns a path
whose length is exactly the least node count of any edge path from start to
target — the FIFO frontier expands levels in non-decreasing distance
order. -/
theorem walk_shortest (L : String → List String) (s t : String)
    (U : List String) (hU : U.Nodup) (hsU : s ∈ U)
    (hUcl : ∀ x ∈ U, ∀ y ∈ L x, y ∈ U)
    (fuel : Nat) (hfuel : U.length + 2 ≤ fuel)
    (hreach : ∃ n, PathN L s t n) :
    ∃ p log2, walk (mkSrc L) s t fuel = (.path p, log2) ∧
      PathN L s t p.length ∧ ∀ j, PathN L s t j → p.length ≤ j := by
  by_cases hst : s = t
  · subst hst
    refine ⟨[s], [], ?_, ?_, ?_⟩
    · simp [walk, mkSrc, NewPath]
    · simpa using PathN.refl s
    · intro j hj
      simpa using pathN_one_le hj
  · have hred : walk (mkSrc L) s t fuel
        = walkLoop (mkSrc L) t fuel [.root s (L s)] [] [s] := by
      simp [walk, mkSrc, hst]
    rw [hred]
    refine walkLoop_shortest_aux L s t U hU hUcl hst fuel []
      [.root s (L s)] [] [s] ?_ ?_ ?_ ?_ ?_ ?_ ?_ ?_ ?_ ?_ ?_ hreach
    · intro q hq
      simp only [List.mem_singleton] at hq
      subst hq
      exact ⟨rfl, rfl⟩
    · simp [NewPath]
    · intro q1 hq1 q2 hq2
      simp only [List.mem_singleton] at hq1 hq2
      subst hq1
      subst hq2
      omega
    · intro pr hpr
      simp at hpr
    · intro x pr0 hfind
      simp only [List.nil_append, List.map_cons, List.map_nil, GoPage.title,
        NewPath, List.length_singleton] at hfind
      rw [List.find?_cons] at hfind
      by_cases hxs : s = x
      · subst hxs
        simp only [beq_self_eq_true] at hfind
        have hpr0 : pr0 = (s, 1) := (Option.some.inj hfind).symm
        subst hpr0
        exact ⟨PathN.refl s, fun j hj => pathN_one_le hj⟩
      · have hbeq : ((s, 1).1 == x) = false := by
          simp [hxs]
        rw [hbeq] at hfind
        simp at hfind
    · intro x
      simp [GoPage.title]
    · intro pr hpr
      simp at hpr
    · simp
    · intro q hq
      simp only [List.mem_singleton] at hq
      subst hq
      simpa [GoPage.title] using hsU
    · intro x hx
      simp at hx
    · rw [remain_nil_right]
      simp only [List.length_singleton]
      omega

/-- C1 witness: on the one-edge graph A to B, Walk(A, B) returns a path of
length two, the exact distance. -/
theorem walk_shortest_witness :
    ∃ p log2, walk (mkSrc LW) "A" "B" 4 = (.path p, log2) ∧
      PathN LW "A" "B" p.length ∧ ∀ j, PathN LW "A" "B" j → p.length ≤ j :=
  walk_shortest LW "A" "B" ["A", "B"] (by decide) (by decide) (by decide) 4
    (by decide) ⟨2, PathN.step (by simp [LW]) (PathN.refl "B")⟩
